import Mathlib

/-!
A verification development for the `mhttp` JSON engine.

The definitions below are a shallow embedding of the Rust sources:
  * `src/http/src/jsonable.rs` — the lexer (`tokenize`), the recursive-descent
    parser (`Parser::{peek, consume, parse_value, parse_array, parse_object,
    parse_json}`), and the typed-conversion layer (`FromJsonValue` for
    `String`, `f64`, `bool`, `Option<T>`, `Vec<T>`).
  * `src/json/src/lib.rs` — the pieces of the generated `Jsonable`
    implementation that the derive macro emits verbatim for every struct:
    `escape_json_string` and the object-member lookup `get_field_val`.

Embedding conventions:
  * Rust `f64` values are modelled as exact rationals (`ℚ`): the lexer only
    ever builds a float from a decimal literal, and no theorem below depends on
    IEEE-754 rounding, so the decimal value itself is the faithful abstraction.
  * Rust `String` error values are modelled by inductive error types (`JErr`,
    `ConvErr`) with one constructor per distinct `Err(...)` site in the source,
    carrying the same payloads that the source interpolates into the message.
  * The parser's recursion (which is unbounded in the source) is driven by a
    fuel counter; exhausting the fuel yields the distinguished outcome
    `PRes.panic`, standing for the only way the source's recursion could fail
    to produce a `Result` value.  `parse_json` passes fuel `3·|tokens| + 3`,
    which is proved sufficient below, so the embedded `parse_json` never
    reaches that outcome and agrees with the source's unbounded recursion.
-/

set_option maxHeartbeats 1600000

namespace MHttp

/-- Token: the closed variant set produced by the lexer
(`enum Token` in `src/http/src/jsonable.rs`). -/
inductive Token where
  | curlyOpen
  | curlyClose
  | bracketOpen
  | bracketClose
  | colon
  | comma
  | string (s : String)
  | number (n : ℚ)
  | boolean (b : Bool)
  | null
  deriving Repr, DecidableEq

/-- JsonValue: the parsed tree (`enum JsonValue` in `src/http/src/jsonable.rs`).
An object is an ordered list of pairs, not a map. -/
inductive JsonValue where
  | null
  | boolean (b : Bool)
  | number (n : ℚ)
  | string (s : String)
  | array (elements : List JsonValue)
  | object (members : List (String × JsonValue))
  deriving Repr

/-- Lexer and parser errors: one constructor per distinct `Err(...)` site in
`tokenize` / `Parser` (the source carries these as formatted `String`s; the
constructors keep the interpolated payloads). -/
inductive JErr where
  | invalidNumberLiteral (text : String)
  | invalidKeywordLiteral
  | unexpectedCharacter (c : Char)
  | emptyInput
  | unexpectedEndOfInput
  | unexpectedToken (t : Token)
  | expectedStringKey
  | expectedColon
  | expectedCommaOrCloserArr (t : Token)
  | expectedCommaOrCloserObj (t : Token)
  | trailingTokens (remaining : List Token)
  deriving Repr, DecidableEq

/-- Outcome of a lexing or parsing computation.  `ok` / `err` mirror Rust's
`Ok` / `Err`; `panic` is the embedding's marker for the one behaviour that
does not return a `Result` (see the header note on fuel). -/
inductive PRes (α : Type) where
  | ok (a : α)
  | err (e : JErr)
  | panic
  deriving Repr

/-- Apply a function to the `ok` payload of a `PRes`. -/
def PRes.map (g : α → β) : PRes α → PRes β
  | .ok a => .ok (g a)
  | .err e => .err e
  | .panic => .panic

/-- The character class collected into a number literal:
`ch.is_ascii_digit() || ch == '.' || ch == '-'` in the number branch of
`tokenize`. -/
def isNumChar (c : Char) : Bool :=
  c.isDigit || c == '.' || c == '-'

/-- Rust `char::is_whitespace`: the Unicode `White_Space` property, listed by
code point. -/
def rustIsWhitespace (c : Char) : Bool :=
  [0x9, 0xA, 0xB, 0xC, 0xD, 0x20, 0x85, 0xA0, 0x1680,
   0x2000, 0x2001, 0x2002, 0x2003, 0x2004, 0x2005, 0x2006, 0x2007,
   0x2008, 0x2009, 0x200A, 0x2028, 0x2029, 0x202F, 0x205F, 0x3000].contains c.toNat

/-- Value of a list of ASCII digit characters, most significant first. -/
def digitsToNat (cs : List Char) : Nat :=
  cs.foldl (fun a c => 10 * a + (c.toNat - 48)) 0

/-- Modelled from the Rust standard library: whether `str::parse::<f64>`
accepts the string, restricted to the strings the lexer can pass it (built
from ASCII digits, `'.'` and `'-'`).  The documented `FromStr` grammar is
`Sign? ('inf' | 'infinity' | 'nan' | Number)` with
`Number ::= Digit+ Exp? | Digit+ '.' Digit* Exp? | Digit* '.' Digit+ Exp?`;
on this restricted alphabet the keyword and exponent forms are unreachable,
leaving: an optional leading sign, then at least one digit, at most one dot,
and nothing else. -/
def f64Accepts (cs : List Char) : Bool :=
  let body := match cs with
    | '-' :: rest => rest
    | '+' :: rest => rest
    | _ => cs
  body.all (fun c => c.isDigit || c == '.') &&
    Nat.ble (body.count '.') 1 &&
    body.any (fun c => c.isDigit)

/-- Modelled from the Rust standard library: the numeric value
`str::parse::<f64>` returns on an accepted string, as an exact rational
(IEEE-754 rounding abstracted away; see the header note). -/
def strToRat (cs : List Char) : ℚ :=
  let sgn : Int := match cs with
    | '-' :: _ => -1
    | _ => 1
  let body := match cs with
    | '-' :: rest => rest
    | '+' :: rest => rest
    | _ => cs
  let intPart := body.takeWhile (fun c => c != '.')
  let fracPart := (body.dropWhile (fun c => c != '.')).drop 1
  mkRat (sgn * (digitsToNat intPart * 10 ^ fracPart.length + digitsToNat fracPart))
    (10 ^ fracPart.length)

/-- The number grammar exactly as the spec states it
(`number := '-'? digit+ ('.' digit+)?`).  This is a claim-side definition,
written from the spec's words, used only to compare the claimed grammar with
the lexer's actual acceptance. -/
def specNumberGrammar (cs : List Char) : Bool :=
  let body := match cs with
    | '-' :: rest => rest
    | _ => cs
  let ip := body.takeWhile (fun c => c.isDigit)
  let rest := body.dropWhile (fun c => c.isDigit)
  !ip.isEmpty && (rest.isEmpty ||
    (rest.head? == some '.' && !(rest.drop 1).isEmpty &&
      (rest.drop 1).all (fun c => c.isDigit)))

/-- The loop body of the lexer `tokenize` of `src/http/src/jsonable.rs`, char
by char over the input's scalar values.  The string branch collects
characters verbatim up to the next `'"'` (or the end of input); the number
branch collects the maximal run of digits / `'.'` / `'-'` and defers to
`f64Accepts`; `t`/`f`/`n` take a fixed number of characters and compare
against the keyword.  The `fuel` counter (an embedding artifact, proved
never to run out below) drives the recursion; each iteration consumes at
least one character. -/
def tokenize_step (rec : List Char → PRes (List Token)) (c : Char) (cs : List Char) :
    PRes (List Token) :=
  if c = '{' then (rec cs).map (Token.curlyOpen :: ·)
  else if c = '}' then (rec cs).map (Token.curlyClose :: ·)
  else if c = '[' then (rec cs).map (Token.bracketOpen :: ·)
  else if c = ']' then (rec cs).map (Token.bracketClose :: ·)
  else if c = ':' then (rec cs).map (Token.colon :: ·)
  else if c = ',' then (rec cs).map (Token.comma :: ·)
  else if c = '"' then
    (rec ((cs.dropWhile (fun ch => ch != '"')).drop 1)).map
      (Token.string (String.mk (cs.takeWhile (fun ch => ch != '"'))) :: ·)
  else if c.isDigit || c = '-' then
    let run := (c :: cs).takeWhile isNumChar
    if f64Accepts run then
      (rec ((c :: cs).dropWhile isNumChar)).map (Token.number (strToRat run) :: ·)
    else .err (.invalidNumberLiteral (String.mk run))
  else if c = 't' then
    if (c :: cs).take 4 = "true".data then
      (rec ((c :: cs).drop 4)).map (Token.boolean true :: ·)
    else .err .invalidKeywordLiteral
  else if c = 'f' then
    if (c :: cs).take 5 = "false".data then
      (rec ((c :: cs).drop 5)).map (Token.boolean false :: ·)
    else .err .invalidKeywordLiteral
  else if c = 'n' then
    if (c :: cs).take 4 = "null".data then
      (rec ((c :: cs).drop 4)).map (Token.null :: ·)
    else .err .invalidKeywordLiteral
  else if rustIsWhitespace c then rec cs
  else .err (.unexpectedCharacter c)

/-- The fuel-driven recursion of the lexer loop: each iteration runs
`tokenize_step` with the rest of the loop as its continuation. -/
def tokenize_go : Nat → List Char → PRes (List Token)
  | _, [] => .ok []
  | 0, _ :: _ => .panic
  | f + 1, c :: cs => tokenize_step (tokenize_go f) c cs

/-- The lexer `tokenize`: the loop consumes at least one character per
iteration, so `|input|` iterations always suffice. -/
def tokenize (input : List Char) : PRes (List Token) :=
  tokenize_go input.length input

/-- Parser state: `struct Parser { tokens: Vec<Token>, position: usize }`. -/
structure PState where
  tokens : List Token
  position : Nat
  deriving Repr, DecidableEq

/-- `Parser::peek`: the token at the cursor, without advancing; fails when the
cursor is at or past the end. -/
def peek (st : PState) : Except JErr Token :=
  if h : st.tokens.length ≤ st.position then .error .unexpectedEndOfInput
  else .ok (st.tokens.get ⟨st.position, by omega⟩)

/-- `Parser::consume`: the token at the cursor, advancing by one; fails when
the cursor is at or past the end. -/
def consume (st : PState) : Except JErr (Token × PState) :=
  if h : st.tokens.length ≤ st.position then .error .unexpectedEndOfInput
  else .ok (st.tokens.get ⟨st.position, by omega⟩, ⟨st.tokens, st.position + 1⟩)

mutual

/-- `Parser::parse_value`: dispatch on the peeked token; leaf tokens consume
themselves, `[` delegates to `parse_array`, `{` to `parse_object`. -/
def parse_value : Nat → PState → PRes (JsonValue × PState)
  | 0, _ => .panic
  | f + 1, st =>
    match peek st with
    | .error e => .err e
    | .ok t =>
      match t with
      | Token.null =>
        match consume st with
        | .error e => .err e
        | .ok (_, st1) => .ok (JsonValue.null, st1)
      | Token.boolean b =>
        match consume st with
        | .error e => .err e
        | .ok (_, st1) => .ok (JsonValue.boolean b, st1)
      | Token.number n =>
        match consume st with
        | .error e => .err e
        | .ok (_, st1) => .ok (JsonValue.number n, st1)
      | Token.string s =>
        match consume st with
        | .error e => .err e
        | .ok (_, st1) => .ok (JsonValue.string s, st1)
      | Token.bracketOpen => parse_array f st
      | Token.curlyOpen => parse_object f st
      | other => .err (.unexpectedToken other)

/-- `Parser::parse_array`: consume `[`; empty-array short-circuit on `]`;
otherwise the element loop (`parse_array_items`). -/
def parse_array : Nat → PState → PRes (JsonValue × PState)
  | 0, _ => .panic
  | f + 1, st =>
    match consume st with
    | .error e => .err e
    | .ok (_, st1) =>
      match peek st1 with
      | .error e => .err e
      | .ok t =>
        if t = Token.bracketClose then
          match consume st1 with
          | .error e => .err e
          | .ok (_, st2) => .ok (JsonValue.array [], st2)
        else parse_array_items f st1 []

/-- The element loop of `parse_array`: parse a value, then either `,`
(continue) or `]` (consume it and finish); anything else is an error. -/
def parse_array_items : Nat → PState → List JsonValue → PRes (JsonValue × PState)
  | 0, _, _ => .panic
  | f + 1, st, acc =>
    match parse_value f st with
    | .panic => .panic
    | .err e => .err e
    | .ok (v, st1) =>
      match peek st1 with
      | .error e => .err e
      | .ok t =>
        if t = Token.comma then
          match consume st1 with
          | .error e => .err e
          | .ok (_, st2) => parse_array_items f st2 (acc ++ [v])
        else if t = Token.bracketClose then
          match consume st1 with
          | .error e => .err e
          | .ok (_, st2) => .ok (JsonValue.array (acc ++ [v]), st2)
        else .err (.expectedCommaOrCloserArr t)

/-- `Parser::parse_object`: consume `{`; empty-object short-circuit on `}`;
otherwise the member loop (`parse_object_items`). -/
def parse_object : Nat → PState → PRes (JsonValue × PState)
  | 0, _ => .panic
  | f + 1, st =>
    match consume st with
    | .error e => .err e
    | .ok (_, st1) =>
      match peek st1 with
      | .error e => .err e
      | .ok t =>
        if t = Token.curlyClose then
          match consume st1 with
          | .error e => .err e
          | .ok (_, st2) => .ok (JsonValue.object [], st2)
        else parse_object_items f st1 []

/-- The member loop of `parse_object`: consume a `String` key (else error),
require `:`, parse the value, then either `,` (continue) or `}` (consume it
and finish). -/
def parse_object_items :
    Nat → PState → List (String × JsonValue) → PRes (JsonValue × PState)
  | 0, _, _ => .panic
  | f + 1, st, acc =>
    match consume st with
    | .error e => .err e
    | .ok (kt, st1) =>
      match kt with
      | Token.string k =>
        match peek st1 with
        | .error e => .err e
        | .ok t =>
          if t = Token.colon then
            match consume st1 with
            | .error e => .err e
            | .ok (_, st2) =>
              match parse_value f st2 with
              | .panic => .panic
              | .err e => .err e
              | .ok (v, st3) =>
                match peek st3 with
                | .error e => .err e
                | .ok t2 =>
                  if t2 = Token.comma then
                    match consume st3 with
                    | .error e => .err e
                    | .ok (_, st4) => parse_object_items f st4 (acc ++ [(k, v)])
                  else if t2 = Token.curlyClose then
                    match consume st3 with
                    | .error e => .err e
                    | .ok (_, st4) => .ok (JsonValue.object (acc ++ [(k, v)]), st4)
                  else .err (.expectedCommaOrCloserObj t2)
          else .err .expectedColon
      | _ => .err .expectedStringKey

end

/-- `Parser::parse_json`: tokenize, reject an empty token sequence, parse one
value, and reject leftover tokens.  The fuel `3·|tokens| + 3` is an embedding
artifact proved sufficient below. -/
def parse_json (input : String) : PRes JsonValue :=
  match tokenize input.data with
  | .panic => .panic
  | .err e => .err e
  | .ok tokens =>
    if tokens.isEmpty then .err .emptyInput
    else
      match parse_value (3 * tokens.length + 3) ⟨tokens, 0⟩ with
      | .panic => .panic
      | .err e => .err e
      | .ok (result, st) =>
        if st.position < st.tokens.length then
          .err (.trailingTokens (st.tokens.drop st.position))
        else .ok result

/-- Conversion-layer errors: one constructor per distinct error site in the
`FromJsonValue` impls of `src/http/src/jsonable.rs` and in the code emitted by
`derive_jsonable` (`src/json/src/lib.rs`), with the payloads the source
interpolates into the message. -/
inductive ConvErr where
  | expectedString (found : JsonValue)
  | expectedNumber (found : JsonValue)
  | expectedBoolean (found : JsonValue)
  | expectedArray (found : JsonValue)
  | missingField (key : String)
  | fieldFailed (name : String) (inner : ConvErr)
  | expectedObject (name : String)
  deriving Repr

/-- `impl FromJsonValue for String`. -/
def string_from_json_value : JsonValue → Except ConvErr String
  | .string s => .ok s
  | v => .error (.expectedString v)

/-- `impl FromJsonValue for f64` (numbers modelled as exact rationals). -/
def f64_from_json_value : JsonValue → Except ConvErr ℚ
  | .number n => .ok n
  | v => .error (.expectedNumber v)

/-- `impl FromJsonValue for bool`. -/
def bool_from_json_value : JsonValue → Except ConvErr Bool
  | .boolean b => .ok b
  | v => .error (.expectedBoolean v)

/-- `impl<T> FromJsonValue for Option<T>`, generic over the inner
conversion. -/
def option_from_json_value (conv : JsonValue → Except ConvErr α) :
    JsonValue → Except ConvErr (Option α)
  | .null => .ok none
  | v => (conv v).map some

/-- The element loop of `impl<T> FromJsonValue for Vec<T>`: convert each
element in order, stopping at the first failure (whose error propagates
unchanged, via `?` in the source). -/
def vec_items (conv : JsonValue → Except ConvErr α) :
    List JsonValue → Except ConvErr (List α)
  | [] => .ok []
  | v :: vs =>
    match conv v with
    | .error e => .error e
    | .ok a =>
      match vec_items conv vs with
      | .error e => .error e
      | .ok as' => .ok (a :: as')

/-- `impl<T> FromJsonValue for Vec<T>`: requires `JsonValue::Array`, then
converts the elements in order. -/
def vec_from_json_value (conv : JsonValue → Except ConvErr α) :
    JsonValue → Except ConvErr (List α)
  | .array arr => vec_items conv arr
  | v => .error (.expectedArray v)

/-- The object-member lookup `get_field_val` emitted by `derive_jsonable`
(`src/json/src/lib.rs`): the value of the first pair whose key equals the
field name, or a missing-field error. -/
def get_field_val (members : List (String × JsonValue)) (key : String) :
    Except ConvErr JsonValue :=
  match members.find? (fun p => p.1 == key) with
  | some p => .ok p.2
  | none => .error (.missingField key)

/-- One sequential `str::replace` pass with a single-character pattern, as
used by `escape_json_string`. -/
def replaceChar (a : Char) (bs : List Char) (s : List Char) : List Char :=
  s.flatMap (fun c => if c = a then bs else [c])

/-- `escape_json_string` emitted by `derive_jsonable`
(`src/json/src/lib.rs` lines 70–78): seven sequential `replace` passes, the
backslash first. -/
def escapeChars (s : List Char) : List Char :=
  replaceChar '\x0c' ['\\', 'f']
    (replaceChar '\x08' ['\\', 'b']
      (replaceChar '\t' ['\\', 't']
        (replaceChar '\r' ['\\', 'r']
          (replaceChar '\n' ['\\', 'n']
            (replaceChar '"' ['\\', '"']
              (replaceChar '\\' ['\\', '\\'] s))))))

/-- `escape_json_string` on `String`s. -/
def escape_json_string (s : String) : String :=
  String.mk (escapeChars s.data)

/-- Decimal digits of `r / d` after the point, by long division (stops at a
zero remainder or after `fuel` digits). -/
def fracDigits : Nat → Nat → Nat → List Char
  | _, _, 0 => []
  | r, d, fuel + 1 =>
    if r = 0 then []
    else Char.ofNat (48 + (r * 10) / d) :: fracDigits ((r * 10) % d) d fuel

/-- Modelled from the spec: the decimal rendering of a number in the
serialization direction (§6.2's grammar `'-'? digit+ ('.' digit+)?`).  The
source's only number serializer is Rust's `f64` `Display` inside the code
emitted by `derive_jsonable`; on every number the parser can produce (a
finite decimal) this exact-decimal rendering agrees with it. -/
def numToString (q : ℚ) : String :=
  let sign := if q < 0 then "-" else ""
  let n := q.num.natAbs
  let d := q.den
  if n % d = 0 then sign ++ toString (n / d)
  else sign ++ toString (n / d) ++ "." ++ String.mk (fracDigits (n % d) d 64)

mutual

/-- Modelled from the spec: the value → text serialization direction (§6.2,
§8).  The repository has no `JsonValue` serializer of its own — the derive
macro emits only per-struct field serialization — so this follows the spec's
grammar, using the source's `escape_json_string` for string contents exactly
as the emitted `into_json` does. -/
def serialize : JsonValue → String
  | .null => "null"
  | .boolean b => if b then "true" else "false"
  | .number q => numToString q
  | .string s => "\"" ++ escape_json_string s ++ "\""
  | .array xs => "[" ++ serializeList xs ++ "]"
  | .object ms => "\x7b" ++ serializeMembers ms ++ "\x7d"

/-- Comma-separated serialization of array elements. -/
def serializeList : List JsonValue → String
  | [] => ""
  | [x] => serialize x
  | x :: xs => serialize x ++ "," ++ serializeList xs

/-- Comma-separated serialization of object members, keys quoted and
escaped. -/
def serializeMembers : List (String × JsonValue) → String
  | [] => ""
  | [(k, v)] => "\"" ++ escape_json_string k ++ "\":" ++ serialize v
  | (k, v) :: ms =>
    "\"" ++ escape_json_string k ++ "\":" ++ serialize v ++ "," ++ serializeMembers ms

end

/-! ### Helper lemmas -/

/-- Dropping a prefix by predicate never lengthens a list. -/
theorem length_dropWhile_le (p : Char → Bool) (l : List Char) :
    (l.dropWhile p).length ≤ l.length := by
  induction l with
  | nil => simp [List.dropWhile]
  | cons a l ih =>
    rw [List.dropWhile_cons]
    by_cases hp : p a
    · simp only [hp, if_true, List.length_cons]
      omega
    · simp [hp]

/-- `takeWhile` keeps a list all of whose elements satisfy the predicate. -/
theorem takeWhile_eq_self_of_all (p : Char → Bool) :
    ∀ l : List Char, (∀ c ∈ l, p c = true) → l.takeWhile p = l := by
  intro l
  induction l with
  | nil => intro _; rfl
  | cons a l ih =>
    intro h
    simp [List.takeWhile_cons, h a (List.mem_cons_self a l),
      ih fun c hc => h c (List.mem_cons_of_mem a hc)]

/-- `dropWhile` empties a list all of whose elements satisfy the predicate. -/
theorem dropWhile_eq_nil_of_all (p : Char → Bool) :
    ∀ l : List Char, (∀ c ∈ l, p c = true) → l.dropWhile p = [] := by
  intro l
  induction l with
  | nil => intro _; rfl
  | cons a l ih =>
    intro h
    simp [List.dropWhile_cons, h a (List.mem_cons_self a l),
      ih fun c hc => h c (List.mem_cons_of_mem a hc)]

/-- `takeWhile` and `dropWhile` split an append at the boundary when the whole
left part satisfies the predicate and the right part starts with a failure. -/
theorem takeWhile_dropWhile_append (p : Char → Bool) :
    ∀ (l1 l2 : List Char), (∀ x ∈ l1, p x = true) →
      (∀ c, l2.head? = some c → p c = false) →
      (l1 ++ l2).takeWhile p = l1 ∧ (l1 ++ l2).dropWhile p = l2 := by
  intro l1
  induction l1 with
  | nil =>
    intro l2 _ h2
    cases l2 with
    | nil => exact ⟨rfl, rfl⟩
    | cons c t =>
      have hc := h2 c rfl
      constructor
      · simp [List.takeWhile_cons, hc]
      · simp [List.dropWhile_cons, hc]
  | cons a l1 ih =>
    intro l2 h1 h2
    have ha := h1 a (List.mem_cons_self a l1)
    have hrest := ih l2 (fun x hx => h1 x (List.mem_cons_of_mem a hx)) h2
    constructor
    · simp [List.takeWhile_cons, ha, hrest.1]
    · simp [List.dropWhile_cons, ha, hrest.2]

/-- A character opening a number literal is not a structural character, a
quote, a keyword opener, or whitespace. -/
theorem numStart_not_special (c : Char) (h : (c.isDigit || c = '-') = true) :
    c ≠ '{' ∧ c ≠ '}' ∧ c ≠ '[' ∧ c ≠ ']' ∧ c ≠ ':' ∧ c ≠ ',' ∧ c ≠ '"' := by
  refine ⟨?_, ?_, ?_, ?_, ?_, ?_, ?_⟩ <;> (rintro rfl; exact absurd h (by decide))

/-- `tokenize_step` calls its continuation only on lists no longer than the
tail it was given. -/
theorem tokenize_step_congr (r1 r2 : List Char → PRes (List Token)) (c : Char)
    (cs : List Char) (h : ∀ l : List Char, l.length ≤ cs.length → r1 l = r2 l) :
    tokenize_step r1 c cs = tokenize_step r2 c cs := by
  unfold tokenize_step
  by_cases h1 : c = '{'
  · rw [if_pos h1, if_pos h1]; exact congrArg _ (h cs (Nat.le_refl _))
  rw [if_neg h1, if_neg h1]
  by_cases h2 : c = '}'
  · rw [if_pos h2, if_pos h2]; exact congrArg _ (h cs (Nat.le_refl _))
  rw [if_neg h2, if_neg h2]
  by_cases h3 : c = '['
  · rw [if_pos h3, if_pos h3]; exact congrArg _ (h cs (Nat.le_refl _))
  rw [if_neg h3, if_neg h3]
  by_cases h4 : c = ']'
  · rw [if_pos h4, if_pos h4]; exact congrArg _ (h cs (Nat.le_refl _))
  rw [if_neg h4, if_neg h4]
  by_cases h5 : c = ':'
  · rw [if_pos h5, if_pos h5]; exact congrArg _ (h cs (Nat.le_refl _))
  rw [if_neg h5, if_neg h5]
  by_cases h6 : c = ','
  · rw [if_pos h6, if_pos h6]; exact congrArg _ (h cs (Nat.le_refl _))
  rw [if_neg h6, if_neg h6]
  by_cases h7 : c = '"'
  · rw [if_pos h7, if_pos h7]
    refine congrArg _ (h _ ?_)
    have := length_dropWhile_le (fun ch => ch != '"') cs
    simp only [List.length_drop]
    omega
  rw [if_neg h7, if_neg h7]
  by_cases h8 : (c.isDigit || c = '-') = true
  · rw [if_pos h8, if_pos h8]
    simp only []
    by_cases h9 : f64Accepts ((c :: cs).takeWhile isNumChar) = true
    · rw [if_pos h9, if_pos h9]
      refine congrArg _ (h _ ?_)
      have hc : isNumChar c = true := by
        simp only [isNumChar, Bool.or_eq_true, beq_iff_eq]
        rcases (Bool.or_eq_true _ _).mp h8 with h' | h'
        · exact Or.inl (Or.inl h')
        · exact Or.inr (decide_eq_true_eq.mp h')
      rw [List.dropWhile_cons, hc]
      simp only [if_true]
      exact length_dropWhile_le isNumChar cs
    · rw [if_neg h9, if_neg h9]
  rw [if_neg h8, if_neg h8]
  by_cases h10 : c = 't'
  · rw [if_pos h10, if_pos h10]
    by_cases h11 : (c :: cs).take 4 = "true".data
    · rw [if_pos h11, if_pos h11]
      refine congrArg _ (h _ ?_)
      simp only [List.length_drop, List.length_cons]
      omega
    · rw [if_neg h11, if_neg h11]
  rw [if_neg h10, if_neg h10]
  by_cases h12 : c = 'f'
  · rw [if_pos h12, if_pos h12]
    by_cases h13 : (c :: cs).take 5 = "false".data
    · rw [if_pos h13, if_pos h13]
      refine congrArg _ (h _ ?_)
      simp only [List.length_drop, List.length_cons]
      omega
    · rw [if_neg h13, if_neg h13]
  rw [if_neg h12, if_neg h12]
  by_cases h14 : c = 'n'
  · rw [if_pos h14, if_pos h14]
    by_cases h15 : (c :: cs).take 4 = "null".data
    · rw [if_pos h15, if_pos h15]
      refine congrArg _ (h _ ?_)
      simp only [List.length_drop, List.length_cons]
      omega
    · rw [if_neg h15, if_neg h15]
  rw [if_neg h14, if_neg h14]
  by_cases h16 : rustIsWhitespace c = true
  · rw [if_pos h16, if_pos h16]
    exact h cs (Nat.le_refl _)
  · rw [if_neg h16, if_neg h16]

/-- The lexer's loop result does not depend on the fuel, once the fuel covers
the input length (each iteration consumes at least one character). -/
theorem tokenize_go_fuel_irrelevant :
    ∀ (n : Nat) (l : List Char) (f1 f2 : Nat), l.length ≤ n →
      l.length ≤ f1 → l.length ≤ f2 → tokenize_go f1 l = tokenize_go f2 l := by
  intro n
  induction n with
  | zero =>
    intro l f1 f2 hn _ _
    have : l = [] := List.length_eq_zero.mp (Nat.le_zero.mp hn)
    subst this
    cases f1 <;> cases f2 <;> rfl
  | succ n ih =>
    intro l f1 f2 hn h1 h2
    cases l with
    | nil => cases f1 <;> cases f2 <;> rfl
    | cons c cs =>
      simp only [List.length_cons] at hn h1 h2
      obtain ⟨a, rfl⟩ : ∃ a, f1 = a + 1 := ⟨f1 - 1, by omega⟩
      obtain ⟨b, rfl⟩ : ∃ b, f2 = b + 1 := ⟨f2 - 1, by omega⟩
      show tokenize_step (tokenize_go a) c cs = tokenize_step (tokenize_go b) c cs
      exact tokenize_step_congr _ _ c cs fun l' hl' =>
        ih l' a b (by omega) (by omega) (by omega)

/-- Mapping never turns a non-`panic` outcome into `panic`. -/
theorem PRes.map_ne_panic (g : α → β) (x : PRes α) (h : x ≠ .panic) :
    PRes.map g x ≠ .panic := by
  cases x with
  | ok a => intro hc; cases hc
  | err e => intro hc; cases hc
  | panic => exact absurd rfl h

/-- The lexer loop maps the empty input to the empty token list at any
fuel. -/
theorem tokenize_go_nil (f : Nat) : tokenize_go f [] = .ok [] := by
  cases f <;> rfl

/-- Every branch of `tokenize_step` is an error, a mapped continuation call
on a list no longer than the tail, or a bare continuation call on the
tail. -/
theorem tokenize_step_shape (rec : List Char → PRes (List Token)) (c : Char)
    (cs : List Char) :
    (∃ e, tokenize_step rec c cs = .err e) ∨
    (∃ (g : List Token → List Token) (l : List Char),
      l.length ≤ cs.length ∧ tokenize_step rec c cs = PRes.map (g · ) (rec l)) ∨
    tokenize_step rec c cs = rec cs := by
  unfold tokenize_step
  by_cases h1 : c = '{'
  · rw [if_pos h1]; exact Or.inr (Or.inl ⟨_, cs, Nat.le_refl _, rfl⟩)
  rw [if_neg h1]
  by_cases h2 : c = '}'
  · rw [if_pos h2]; exact Or.inr (Or.inl ⟨_, cs, Nat.le_refl _, rfl⟩)
  rw [if_neg h2]
  by_cases h3 : c = '['
  · rw [if_pos h3]; exact Or.inr (Or.inl ⟨_, cs, Nat.le_refl _, rfl⟩)
  rw [if_neg h3]
  by_cases h4 : c = ']'
  · rw [if_pos h4]; exact Or.inr (Or.inl ⟨_, cs, Nat.le_refl _, rfl⟩)
  rw [if_neg h4]
  by_cases h5 : c = ':'
  · rw [if_pos h5]; exact Or.inr (Or.inl ⟨_, cs, Nat.le_refl _, rfl⟩)
  rw [if_neg h5]
  by_cases h6 : c = ','
  · rw [if_pos h6]; exact Or.inr (Or.inl ⟨_, cs, Nat.le_refl _, rfl⟩)
  rw [if_neg h6]
  by_cases h7 : c = '"'
  · rw [if_pos h7]
    refine Or.inr (Or.inl ⟨_, _, ?_, rfl⟩)
    have := length_dropWhile_le (fun ch => ch != '"') cs
    simp only [List.length_drop]
    omega
  rw [if_neg h7]
  by_cases h8 : (c.isDigit || c = '-') = true
  · rw [if_pos h8]
    simp only []
    by_cases h9 : f64Accepts ((c :: cs).takeWhile isNumChar) = true
    · rw [if_pos h9]
      refine Or.inr (Or.inl ⟨_, _, ?_, rfl⟩)
      have hc : isNumChar c = true := by
        simp only [isNumChar, Bool.or_eq_true, beq_iff_eq]
        rcases (Bool.or_eq_true _ _).mp h8 with h' | h'
        · exact Or.inl (Or.inl h')
        · exact Or.inr (decide_eq_true_eq.mp h')
      rw [List.dropWhile_cons, hc]
      simp only [if_true]
      exact length_dropWhile_le isNumChar cs
    · rw [if_neg h9]; exact Or.inl ⟨_, rfl⟩
  rw [if_neg h8]
  by_cases h10 : c = 't'
  · rw [if_pos h10]
    by_cases h11 : (c :: cs).take 4 = "true".data
    · rw [if_pos h11]
      refine Or.inr (Or.inl ⟨_, _, ?_, rfl⟩)
      simp only [List.length_drop, List.length_cons]
      omega
    · rw [if_neg h11]; exact Or.inl ⟨_, rfl⟩
  rw [if_neg h10]
  by_cases h12 : c = 'f'
  · rw [if_pos h12]
    by_cases h13 : (c :: cs).take 5 = "false".data
    · rw [if_pos h13]
      refine Or.inr (Or.inl ⟨_, _, ?_, rfl⟩)
      simp only [List.length_drop, List.length_cons]
      omega
    · rw [if_neg h13]; exact Or.inl ⟨_, rfl⟩
  rw [if_neg h12]
  by_cases h14 : c = 'n'
  · rw [if_pos h14]
    by_cases h15 : (c :: cs).take 4 = "null".data
    · rw [if_pos h15]
      refine Or.inr (Or.inl ⟨_, _, ?_, rfl⟩)
      simp only [List.length_drop, List.length_cons]
      omega
    · rw [if_neg h15]; exact Or.inl ⟨_, rfl⟩
  rw [if_neg h14]
  by_cases h16 : rustIsWhitespace c = true
  · rw [if_pos h16]; exact Or.inr (Or.inr rfl)
  · rw [if_neg h16]; exact Or.inl ⟨_, rfl⟩

/-- With fuel covering the input length, the lexer loop never runs out of
fuel. -/
theorem tokenize_go_ne_panic :
    ∀ (n : Nat) (l : List Char) (f : Nat), l.length ≤ n → l.length ≤ f →
      tokenize_go f l ≠ PRes.panic := by
  intro n
  induction n with
  | zero =>
    intro l f hn _
    have : l = [] := List.length_eq_zero.mp (Nat.le_zero.mp hn)
    subst this
    rw [tokenize_go_nil]
    intro hc; cases hc
  | succ n ih =>
    intro l f hn hf
    cases l with
    | nil =>
      rw [tokenize_go_nil]
      intro hc; cases hc
    | cons c cs =>
      simp only [List.length_cons] at hn hf
      obtain ⟨a, rfl⟩ : ∃ a, f = a + 1 := ⟨f - 1, by omega⟩
      show tokenize_step (tokenize_go a) c cs ≠ PRes.panic
      rcases tokenize_step_shape (tokenize_go a) c cs with ⟨e, he⟩ | ⟨g, l', hl', he⟩ | he
      · rw [he]; intro hc; cases hc
      · rw [he]
        exact PRes.map_ne_panic _ _ (ih l' a (by omega) (by omega))
      · rw [he]
        exact ih cs a (by omega) (by omega)

/-- The lexer never runs out of fuel on any input. -/
theorem tokenize_ne_panic (l : List Char) : tokenize l ≠ PRes.panic :=
  tokenize_go_ne_panic l.length l l.length (Nat.le_refl _) (Nat.le_refl _)

/-! ### Claim theorems: lexer behaviour -/

/-- Claim C1 (status: code_bug).  The value-level round trip fails on the
code: the document `"a\b"` (a string literal containing one backslash)
parses to the three-character string `a\b`; serializing that value escapes
the backslash (as `escape_json_string` does), but the lexer never decodes
escapes, so re-parsing yields the four-character string `a\\b`, a different
tree.  The spec (§4.1, §8, §9) requires the round trip and calls the missing
escape decoding a defect of the reference code. -/
theorem c1_roundtrip_failure :
    parse_json "\"a\\b\"" = .ok (JsonValue.string "a\\b") ∧
    serialize (JsonValue.string "a\\b") = "\"a\\\\b\"" ∧
    parse_json (serialize (JsonValue.string "a\\b")) = .ok (JsonValue.string "a\\\\b") ∧
    JsonValue.string "a\\\\b" ≠ JsonValue.string "a\\b" := by
  refine ⟨rfl, ?_, ?_, ?_⟩
  · simp [serialize, escape_json_string, escapeChars, replaceChar]
  · rw [show serialize (JsonValue.string "a\\b") = "\"a\\\\b\"" by
      simp [serialize, escape_json_string, escapeChars, replaceChar]]
    rfl
  · intro hc
    injection hc with hs
    exact absurd hs (by decide)

/-- Claim C6 (status: code_bug).  The lexer does not decode backslash
escapes: in `"a\"b"` the escaped quote terminates the literal (the collected
text is `a\`), after which the stray `b` makes tokenization fail with
`UnexpectedCharacter('b')` instead of producing the string `a"b`; and in
`"a\b"` the backslash is kept verbatim.  The spec (§4.1, §9) requires escape
decoding and flags its absence as a defect of the reference code. -/
theorem c6_no_escape_decoding :
    tokenize "\"a\\\"b\"".data = .err (.unexpectedCharacter 'b') ∧
    tokenize "\"a\\b\"".data = .ok [Token.string "a\\b"] :=
  ⟨rfl, rfl⟩

/-- Claim C10 (status: confirmed).  An opening quote with no matching closing
quote before the end of the input is silently accepted: the lexer returns a
`String` token holding the entire remainder of the input, with no error. -/
theorem c10_unterminated_string_accepted (s : List Char)
    (hs : ∀ c ∈ s, c ≠ '"') :
    tokenize ('"' :: s) = .ok [Token.string (String.mk s)] := by
  have hall : ∀ c ∈ s, (fun ch => ch != '"') c = true :=
    fun c hc => bne_iff_ne.mpr (hs c hc)
  show tokenize_step (tokenize_go s.length) '"' s = _
  unfold tokenize_step
  rw [if_neg (by decide), if_neg (by decide), if_neg (by decide), if_neg (by decide),
    if_neg (by decide), if_neg (by decide), if_pos rfl,
    takeWhile_eq_self_of_all _ s hall, dropWhile_eq_nil_of_all _ s hall,
    List.drop_nil, tokenize_go_nil]
  rfl

/-- Witness for C10 at the concrete input `"abc` (no closing quote). -/
theorem c10_witness :
    tokenize ('"' :: ['a', 'b', 'c']) = .ok [Token.string (String.mk ['a', 'b', 'c'])] :=
  c10_unterminated_string_accepted ['a', 'b', 'c'] (by decide)

/-! ### Claim theorems: escaping and conversion -/

/-- Claim C7 counterexample (status: corrected).  `escape_json_string` leaves
the control character NUL (code point 0, below 0x20) completely unescaped,
so it does not escape every control character as the claim states. -/
theorem c7_counterexample :
    escape_json_string (String.mk ['\x00']) = String.mk ['\x00'] ∧
    ('\x00').toNat < 0x20 :=
  ⟨rfl, by decide⟩

/-- Claim C7 as amended: `escape_json_string` distributes over concatenation
and escapes exactly the seven characters `\`, `"`, LF, CR, TAB, BS, FF
(each to a backslash pair); every other character — every other control
character and DEL included — passes through unchanged. -/
theorem c7_escape_exact :
    (∀ s t : List Char, escapeChars (s ++ t) = escapeChars s ++ escapeChars t) ∧
    escapeChars ['\\'] = ['\\', '\\'] ∧
    escapeChars ['"'] = ['\\', '"'] ∧
    escapeChars ['\n'] = ['\\', 'n'] ∧
    escapeChars ['\r'] = ['\\', 'r'] ∧
    escapeChars ['\t'] = ['\\', 't'] ∧
    escapeChars ['\x08'] = ['\\', 'b'] ∧
    escapeChars ['\x0c'] = ['\\', 'f'] ∧
    (∀ c : Char, c ∉ (['\\', '"', '\n', '\r', '\t', '\x08', '\x0c'] : List Char) →
      escapeChars [c] = [c]) := by
  refine ⟨?_, rfl, rfl, rfl, rfl, rfl, rfl, rfl, ?_⟩
  · intro s t
    simp only [escapeChars, replaceChar, List.flatMap_append]
  · intro c hc
    simp only [List.mem_cons, List.not_mem_nil, or_false, not_or] at hc
    obtain ⟨h1, h2, h3, h4, h5, h6, h7⟩ := hc
    simp only [escapeChars, replaceChar, List.flatMap_cons, List.flatMap_nil,
      List.append_nil, if_neg h1, if_neg h2, if_neg h3, if_neg h4, if_neg h5,
      if_neg h6, if_neg h7]

/-- Witness for C7's amended theorem: `z` is not special and is kept as
is. -/
theorem c7_witness : escapeChars ['z'] = ['z'] :=
  c7_escape_exact.2.2.2.2.2.2.2.2 'z' (by decide)

/-- Claim C9 (status: confirmed).  Object-member lookup returns the first
matching pair: on the object parsed from `{"a":1,"a":2}` the lookup of `a`
yields `1`; in general the first pair with the given key wins, a key
matching no pair gives the distinct missing-field error. -/
theorem c9_first_match_lookup :
    parse_json "\x7b\"a\":1,\"a\":2\x7d" =
      .ok (JsonValue.object [("a", JsonValue.number 1), ("a", JsonValue.number 2)]) ∧
    get_field_val [("a", JsonValue.number 1), ("a", JsonValue.number 2)] "a" =
      .ok (JsonValue.number 1) ∧
    (∀ (pre post : List (String × JsonValue)) (key : String) (v : JsonValue),
      (∀ p ∈ pre, p.1 ≠ key) →
      get_field_val (pre ++ (key, v) :: post) key = .ok v) ∧
    (∀ (members : List (String × JsonValue)) (key : String),
      (∀ p ∈ members, p.1 ≠ key) →
      get_field_val members key = .error (.missingField key)) ∧
    (∀ (key : String) (found : JsonValue),
      ConvErr.missingField key ≠ ConvErr.expectedString found ∧
      ConvErr.missingField key ≠ ConvErr.expectedNumber found ∧
      ConvErr.missingField key ≠ ConvErr.expectedBoolean found ∧
      ConvErr.missingField key ≠ ConvErr.expectedArray found) := by
  refine ⟨rfl, rfl, ?_, ?_, ?_⟩
  · intro pre post key v h
    induction pre with
    | nil =>
      have hfind := @List.find?_cons_of_pos _ (fun q => q.1 == key) (key, v) post
        (by simp)
      simp only [List.nil_append, get_field_val, hfind]
    | cons p pre ih =>
      have hp : ¬ ((fun q : String × JsonValue => q.1 == key) p = true) := by
        simp only [beq_iff_eq]
        exact h p (List.mem_cons_self p pre)
      have hfind := @List.find?_cons_of_neg _ (fun q => q.1 == key) p
        (pre ++ (key, v) :: post) hp
      simp only [List.cons_append, get_field_val, hfind]
      simp only [get_field_val] at ih
      exact ih fun q hq => h q (List.mem_cons_of_mem p hq)
  · intro members key h
    induction members with
    | nil => rfl
    | cons p members ih =>
      have hp : ¬ ((fun q : String × JsonValue => q.1 == key) p = true) := by
        simp only [beq_iff_eq]
        exact h p (List.mem_cons_self p members)
      have hfind := @List.find?_cons_of_neg _ (fun q => q.1 == key) p members hp
      simp only [get_field_val, hfind]
      simp only [get_field_val] at ih
      exact ih fun q hq => h q (List.mem_cons_of_mem p hq)
  · intro key found
    refine ⟨?_, ?_, ?_, ?_⟩ <;> exact fun hc => ConvErr.noConfusion hc

/-- Witness for C9: the key `a` is behind a non-matching pair and its first
occurrence is returned. -/
theorem c9_witness :
    get_field_val ([("b", JsonValue.null)] ++ ("a", JsonValue.boolean true) :: []) "a" =
      .ok (JsonValue.boolean true) :=
  c9_first_match_lookup.2.2.1 [("b", JsonValue.null)] [] "a" (JsonValue.boolean true)
    (by decide)

/-- Claim C8 counterexample (status: corrected).  The `Vec<T>` conversion
does not report the failing index: an array failing at index 0 and an array
failing at index 1 produce the very same error value (the propagated inner
error), so no `ArrayElementError{index, inner}` is involved. -/
theorem c8_counterexample :
    vec_from_json_value f64_from_json_value
        (JsonValue.array [JsonValue.boolean true]) =
      .error (.expectedNumber (JsonValue.boolean true)) ∧
    vec_from_json_value f64_from_json_value
        (JsonValue.array [JsonValue.number 1, JsonValue.boolean true]) =
      .error (.expectedNumber (JsonValue.boolean true)) :=
  ⟨rfl, rfl⟩

/-- Claim C8 as amended: `Vec<T>` conversion succeeds only on `Array`,
converts elements in order (success yields a list of equal length whose
entries are the element conversions), and fails on the first failing element
with that element's error propagated unchanged — no index attached. -/
theorem c8_sequence_conversion {α : Type} :
    (∀ (conv : JsonValue → Except ConvErr α) (v : JsonValue),
      (∀ xs, v ≠ JsonValue.array xs) →
      vec_from_json_value conv v = .error (.expectedArray v)) ∧
    (∀ (conv : JsonValue → Except ConvErr α) (xs : List JsonValue) (rs : List α),
      vec_items conv xs = .ok rs →
      rs.length = xs.length ∧
      ∀ (i : Nat) (hx : i < xs.length) (hr : i < rs.length),
        conv (xs.get ⟨i, hx⟩) = .ok (rs.get ⟨i, hr⟩)) ∧
    (∀ (conv : JsonValue → Except ConvErr α) (pre : List JsonValue)
      (x : JsonValue) (post : List JsonValue) (e : ConvErr),
      (∀ a ∈ pre, ∃ b, conv a = .ok b) → conv x = .error e →
      vec_items conv (pre ++ x :: post) = .error e) := by
  refine ⟨?_, ?_, ?_⟩
  · intro conv v hv
    cases v <;> first | rfl | exact absurd rfl (hv _)
  · intro conv xs
    induction xs with
    | nil =>
      intro rs h
      simp only [vec_items] at h
      injection h with h'
      subst h'
      exact ⟨rfl, fun i hx _ => absurd hx (Nat.not_lt_zero i)⟩
    | cons x xs ih =>
      intro rs h
      simp only [vec_items] at h
      cases hc : conv x with
      | error e => rw [hc] at h; cases h
      | ok a =>
        rw [hc] at h
        cases hi : vec_items conv xs with
        | error e => rw [hi] at h; cases h
        | ok as' =>
          rw [hi] at h
          injection h with h'
          subst h'
          obtain ⟨hlen, helem⟩ := ih as' hi
          refine ⟨by simp [hlen], ?_⟩
          intro i hx hr
          cases i with
          | zero => exact hc
          | succ i => exact helem i (by simpa using hx) (by simpa using hr)
  · intro conv pre
    induction pre with
    | nil =>
      intro x post e _ hx
      simp only [List.nil_append, vec_items]
      rw [hx]
    | cons a pre ih =>
      intro x post e hall hx
      obtain ⟨b, hb⟩ := hall a (List.mem_cons_self a pre)
      have hrec := ih x post e (fun q hq => hall q (List.mem_cons_of_mem a hq)) hx
      simp only [List.cons_append, vec_items]
      rw [hb]
      show (match vec_items conv (pre ++ x :: post) with
        | Except.error e => Except.error e
        | Except.ok as' => Except.ok (b :: as')) = Except.error e
      rw [hrec]

/-- Witness for C8's amended theorem: a non-array value is rejected with a
type mismatch. -/
theorem c8_witness :
    vec_from_json_value f64_from_json_value JsonValue.null =
      .error (.expectedArray JsonValue.null) :=
  c8_sequence_conversion.1 f64_from_json_value JsonValue.null
    fun _ h => JsonValue.noConfusion h

/-! ### Claim theorems: number lexing and the document entry point -/

/-- Claim C5 counterexample (status: corrected).  The run `5.` does not match
the claimed grammar `'-'? digit+ ('.' digit+)?`, yet the lexer produces a
`Number` token for it (Rust's `f64` parser accepts a trailing dot). -/
theorem c5_counterexample :
    tokenize "5.".data = .ok [Token.number 5] ∧
    specNumberGrammar "5.".data = false :=
  ⟨rfl, rfl⟩

/-- Claim C5 as amended: on seeing a digit or `-` the lexer collects the
maximal run of digits / `.` / `-` and produces a `Number` token exactly when
Rust's `f64` parser accepts the run (an optional leading sign, then at least
one digit and at most one dot — trailing-dot and leading-dot fractions
included); every other run fails with `InvalidNumberLiteral`.  Exponent
notation is never part of a run, so `1e10` fails at the stray `e`. -/
theorem c5_number_lexing :
    (∀ (c : Char) (cs rest : List Char),
      (c.isDigit || c = '-') = true →
      (∀ x ∈ c :: cs, isNumChar x = true) →
      (∀ d, rest.head? = some d → isNumChar d = false) →
      tokenize (c :: cs ++ rest) =
        if f64Accepts (c :: cs) = true then
          (tokenize rest).map (Token.number (strToRat (c :: cs)) :: ·)
        else .err (.invalidNumberLiteral (String.mk (c :: cs)))) ∧
    tokenize "-.5".data = .ok [Token.number (mkRat (-1) 2)] ∧
    tokenize "1e10".data = .err (.unexpectedCharacter 'e') ∧
    tokenize "1.2.3".data = .err (.invalidNumberLiteral "1.2.3") ∧
    tokenize "--5".data = .err (.invalidNumberLiteral "--5") := by
  refine ⟨?_, rfl, rfl, rfl, rfl⟩
  intro c cs rest hstart hall hrest
  obtain ⟨n1, n2, n3, n4, n5, n6, n7⟩ := numStart_not_special c hstart
  have hsplit := takeWhile_dropWhile_append isNumChar (c :: cs) rest hall hrest
  show tokenize_step (tokenize_go ((cs ++ rest).length)) c (cs ++ rest) = _
  unfold tokenize_step
  rw [if_neg n1, if_neg n2, if_neg n3, if_neg n4, if_neg n5, if_neg n6, if_neg n7,
    if_pos hstart]
  simp only []
  rw [← List.cons_append, hsplit.1, hsplit.2]
  by_cases hacc : f64Accepts (c :: cs) = true
  · rw [if_pos hacc, if_pos hacc]
    refine congrArg _ ?_
    have hlen : rest.length ≤ (cs ++ rest).length := by
      rw [List.length_append]; omega
    exact tokenize_go_fuel_irrelevant ((cs ++ rest).length) rest _ _
      hlen hlen (Nat.le_refl _)
  · rw [if_neg hacc, if_neg hacc]

/-- Witness for C5's amended theorem at the run `7` followed by a space. -/
theorem c5_witness :
    tokenize ('7' :: [] ++ [' ']) =
      if f64Accepts ('7' :: []) = true then
        (tokenize [' ']).map (Token.number (strToRat ('7' :: [])) :: ·)
      else .err (.invalidNumberLiteral (String.mk ('7' :: []))) :=
  c5_number_lexing.1 '7' [] [' '] (by decide) (by decide)
    (by intro d hd; cases hd; decide)

/-- Unfolding `parse_json` once the token list is known. -/
theorem parse_json_eq (input : String) (ts : List Token)
    (h : tokenize input.data = .ok ts) :
    parse_json input =
      if ts.isEmpty then .err .emptyInput
      else
        match parse_value (3 * ts.length + 3) ⟨ts, 0⟩ with
        | .panic => .panic
        | .err e => .err e
        | .ok (result, st) =>
          if st.position < st.tokens.length then
            .err (.trailingTokens (st.tokens.drop st.position))
          else .ok result := by
  unfold parse_json
  rw [h]

/-- Claim C2 (status: confirmed).  `parse_json` tokenizes, fails with
`EmptyInput` on an empty token sequence, parses exactly one value, and fails
with `TrailingTokens` when tokens remain after it; in particular
`123 456` fails with `TrailingTokens` carrying the leftover `456`. -/
theorem c2_parse_document_shape :
    (∀ input : String, tokenize input.data = .ok [] →
      parse_json input = .err .emptyInput) ∧
    (∀ (input : String) (ts : List Token) (v : JsonValue) (st : PState),
      tokenize input.data = .ok ts → ts ≠ [] →
      parse_value (3 * ts.length + 3) ⟨ts, 0⟩ = .ok (v, st) →
      (st.position < st.tokens.length →
        parse_json input = .err (.trailingTokens (st.tokens.drop st.position))) ∧
      (st.tokens.length ≤ st.position → parse_json input = .ok v)) ∧
    parse_json "123 456" = .err (.trailingTokens [Token.number 456]) := by
  refine ⟨?_, ?_, rfl⟩
  · intro input h
    rw [parse_json_eq input [] h]
    rfl
  · intro input ts v st htok hne hval
    have hempty : ts.isEmpty = false := by
      cases ts with
      | nil => exact absurd rfl hne
      | cons t ts' => rfl
    rw [parse_json_eq input ts htok, hempty]
    simp only [Bool.false_eq_true, if_false]
    rw [hval]
    constructor
    · intro hlt
      show (if st.position < st.tokens.length then
          PRes.err (.trailingTokens (st.tokens.drop st.position))
        else PRes.ok v) = PRes.err (.trailingTokens (st.tokens.drop st.position))
      rw [if_pos hlt]
    · intro hge
      show (if st.position < st.tokens.length then
          PRes.err (.trailingTokens (st.tokens.drop st.position))
        else PRes.ok v) = PRes.ok v
      rw [if_neg (by omega)]

/-- Witness for C2 at the concrete document `123 456`. -/
theorem c2_witness :
    parse_json "123 456" = .err (.trailingTokens [Token.number 456]) :=
  (c2_parse_document_shape.2.1 "123 456" [Token.number 123, Token.number 456]
    (JsonValue.number 123) ⟨[Token.number 123, Token.number 456], 1⟩
    rfl (by decide) rfl).1 (by decide)

/-! ### Parser cursor lemmas -/

/-- A successful `consume` advances the cursor by exactly one and leaves the
token list unchanged; it requires a token to be available. -/
theorem consume_eq_ok {st : PState} {t : Token} {st' : PState}
    (h : consume st = .ok (t, st')) :
    st'.tokens = st.tokens ∧ st'.position = st.position + 1 ∧
      st.position < st.tokens.length := by
  unfold consume at h
  split at h
  · exact Except.noConfusion h
  · rename_i hnot
    injection h with hpair
    cases hpair
    exact ⟨rfl, rfl, by omega⟩

/-- `consume` fails exactly when the cursor is at or past the end. -/
theorem consume_eq_err {st : PState} (h : st.tokens.length ≤ st.position) :
    consume st = .error .unexpectedEndOfInput := by
  unfold consume
  exact dif_pos h

/-- A successful `peek` means a token is available. -/
theorem peek_eq_ok {st : PState} {t : Token} (h : peek st = .ok t) :
    st.position < st.tokens.length := by
  unfold peek at h
  split at h
  · exact Except.noConfusion h
  · rename_i hnot
    omega

/-- On success, every parsing routine leaves the token list unchanged,
strictly advances the cursor, and keeps it within the token count. -/
theorem parse_mono :
    ∀ f : Nat,
      (∀ st v st', parse_value f st = .ok (v, st') →
        st'.tokens = st.tokens ∧ st.position < st'.position ∧
          st'.position ≤ st.tokens.length) ∧
      (∀ st v st', parse_array f st = .ok (v, st') →
        st'.tokens = st.tokens ∧ st.position < st'.position ∧
          st'.position ≤ st.tokens.length) ∧
      (∀ st acc v st', parse_array_items f st acc = .ok (v, st') →
        st'.tokens = st.tokens ∧ st.position < st'.position ∧
          st'.position ≤ st.tokens.length) ∧
      (∀ st v st', parse_object f st = .ok (v, st') →
        st'.tokens = st.tokens ∧ st.position < st'.position ∧
          st'.position ≤ st.tokens.length) ∧
      (∀ st acc v st', parse_object_items f st acc = .ok (v, st') →
        st'.tokens = st.tokens ∧ st.position < st'.position ∧
          st'.position ≤ st.tokens.length) := by
  intro f
  induction f with
  | zero =>
    refine ⟨?_, ?_, ?_, ?_, ?_⟩
    · intro st v st' h; exact PRes.noConfusion h
    · intro st v st' h; exact PRes.noConfusion h
    · intro st acc v st' h; exact PRes.noConfusion h
    · intro st v st' h; exact PRes.noConfusion h
    · intro st acc v st' h; exact PRes.noConfusion h
  | succ f ih =>
    obtain ⟨ihv, iha, ihai, iho, ihoi⟩ := ih
    refine ⟨?_, ?_, ?_, ?_, ?_⟩
    · -- parse_value
      intro st v st' h
      simp only [parse_value] at h
      cases hp : peek st with
      | error e => simp only [hp] at h; exact PRes.noConfusion h
      | ok t =>
        simp only [hp] at h
        cases t with
        | null =>
          simp only [] at h
          cases hc : consume st with
          | error e => simp only [hc] at h; exact PRes.noConfusion h
          | ok pr =>
            obtain ⟨tk, st1⟩ := pr
            simp only [hc] at h
            injection h with hpr
            rw [Prod.mk.injEq] at hpr
            obtain ⟨hveq, hsteq⟩ := hpr
            rw [← hsteq]
            obtain ⟨ht, hp1, hlt⟩ := consume_eq_ok hc
            exact ⟨ht, by omega, by omega⟩
        | boolean b =>
          simp only [] at h
          cases hc : consume st with
          | error e => simp only [hc] at h; exact PRes.noConfusion h
          | ok pr =>
            obtain ⟨tk, st1⟩ := pr
            simp only [hc] at h
            injection h with hpr
            rw [Prod.mk.injEq] at hpr
            obtain ⟨hveq, hsteq⟩ := hpr
            rw [← hsteq]
            obtain ⟨ht, hp1, hlt⟩ := consume_eq_ok hc
            exact ⟨ht, by omega, by omega⟩
        | number n =>
          simp only [] at h
          cases hc : consume st with
          | error e => simp only [hc] at h; exact PRes.noConfusion h
          | ok pr =>
            obtain ⟨tk, st1⟩ := pr
            simp only [hc] at h
            injection h with hpr
            rw [Prod.mk.injEq] at hpr
            obtain ⟨hveq, hsteq⟩ := hpr
            rw [← hsteq]
            obtain ⟨ht, hp1, hlt⟩ := consume_eq_ok hc
            exact ⟨ht, by omega, by omega⟩
        | string s =>
          simp only [] at h
          cases hc : consume st with
          | error e => simp only [hc] at h; exact PRes.noConfusion h
          | ok pr =>
            obtain ⟨tk, st1⟩ := pr
            simp only [hc] at h
            injection h with hpr
            rw [Prod.mk.injEq] at hpr
            obtain ⟨hveq, hsteq⟩ := hpr
            rw [← hsteq]
            obtain ⟨ht, hp1, hlt⟩ := consume_eq_ok hc
            exact ⟨ht, by omega, by omega⟩
        | bracketOpen => exact iha st v st' h
        | curlyOpen => exact iho st v st' h
        | curlyClose => exact PRes.noConfusion h
        | bracketClose => exact PRes.noConfusion h
        | colon => exact PRes.noConfusion h
        | comma => exact PRes.noConfusion h
    · -- parse_array
      intro st v st' h
      simp only [parse_array] at h
      cases hc : consume st with
      | error e => simp only [hc] at h; exact PRes.noConfusion h
      | ok pr =>
        obtain ⟨tk, st1⟩ := pr
        simp only [hc] at h
        obtain ⟨ht1, hp1, hlt1⟩ := consume_eq_ok hc
        have hlen1 : st1.tokens.length = st.tokens.length := by rw [ht1]
        cases hp : peek st1 with
        | error e => simp only [hp] at h; exact PRes.noConfusion h
        | ok t =>
          simp only [hp] at h
          by_cases ht : t = Token.bracketClose
          · simp only [if_pos ht] at h
            cases hc2 : consume st1 with
            | error e => simp only [hc2] at h; exact PRes.noConfusion h
            | ok pr2 =>
              obtain ⟨tk2, st2⟩ := pr2
              simp only [hc2] at h
              injection h with hpr
              rw [Prod.mk.injEq] at hpr
              obtain ⟨hveq, hsteq⟩ := hpr
              rw [← hsteq]
              obtain ⟨ht2, hp2, hlt2⟩ := consume_eq_ok hc2
              have hl2 : st2.tokens.length = st1.tokens.length := by rw [ht2]
              exact ⟨ht2.trans ht1, by omega, by omega⟩
          · simp only [if_neg ht] at h
            obtain ⟨ht', hp', hb'⟩ := ihai st1 [] v st' h
            have hl' : st'.tokens.length = st1.tokens.length := by rw [ht']
            exact ⟨ht'.trans ht1, by omega, by omega⟩
    · -- parse_array_items
      intro st acc v st' h
      simp only [parse_array_items] at h
      cases hv : parse_value f st with
      | panic => simp only [hv] at h; exact PRes.noConfusion h
      | err e => simp only [hv] at h; exact PRes.noConfusion h
      | ok pr =>
        obtain ⟨v1, st1⟩ := pr
        simp only [hv] at h
        obtain ⟨ht1, hp1, hb1⟩ := ihv st v1 st1 hv
        have hlen1 : st1.tokens.length = st.tokens.length := by rw [ht1]
        cases hp : peek st1 with
        | error e => simp only [hp] at h; exact PRes.noConfusion h
        | ok t =>
          simp only [hp] at h
          by_cases hcm : t = Token.comma
          · simp only [if_pos hcm] at h
            cases hc : consume st1 with
            | error e => simp only [hc] at h; exact PRes.noConfusion h
            | ok pr2 =>
              obtain ⟨tk2, st2⟩ := pr2
              simp only [hc] at h
              obtain ⟨ht2, hp2, hlt2⟩ := consume_eq_ok hc
              obtain ⟨ht', hp', hb'⟩ := ihai st2 (acc ++ [v1]) v st' h
              have hl2 : st2.tokens.length = st1.tokens.length := by rw [ht2]
              have hl' : st'.tokens.length = st2.tokens.length := by rw [ht']
              exact ⟨(ht'.trans ht2).trans ht1, by omega, by omega⟩
          · by_cases hcl : t = Token.bracketClose
            · simp only [if_neg hcm, if_pos hcl] at h
              cases hc : consume st1 with
              | error e => simp only [hc] at h; exact PRes.noConfusion h
              | ok pr2 =>
                obtain ⟨tk2, st2⟩ := pr2
                simp only [hc] at h
                injection h with hpr
                rw [Prod.mk.injEq] at hpr
                obtain ⟨hveq, hsteq⟩ := hpr
                rw [← hsteq]
                obtain ⟨ht2, hp2, hlt2⟩ := consume_eq_ok hc
                have hl2 : st2.tokens.length = st1.tokens.length := by rw [ht2]
                exact ⟨ht2.trans ht1, by omega, by omega⟩
            · simp only [if_neg hcm, if_neg hcl] at h
              exact PRes.noConfusion h
    · -- parse_object
      intro st v st' h
      simp only [parse_object] at h
      cases hc : consume st with
      | error e => simp only [hc] at h; exact PRes.noConfusion h
      | ok pr =>
        obtain ⟨tk, st1⟩ := pr
        simp only [hc] at h
        obtain ⟨ht1, hp1, hlt1⟩ := consume_eq_ok hc
        have hlen1 : st1.tokens.length = st.tokens.length := by rw [ht1]
        cases hp : peek st1 with
        | error e => simp only [hp] at h; exact PRes.noConfusion h
        | ok t =>
          simp only [hp] at h
          by_cases ht : t = Token.curlyClose
          · simp only [if_pos ht] at h
            cases hc2 : consume st1 with
            | error e => simp only [hc2] at h; exact PRes.noConfusion h
            | ok pr2 =>
              obtain ⟨tk2, st2⟩ := pr2
              simp only [hc2] at h
              injection h with hpr
              rw [Prod.mk.injEq] at hpr
              obtain ⟨hveq, hsteq⟩ := hpr
              rw [← hsteq]
              obtain ⟨ht2, hp2, hlt2⟩ := consume_eq_ok hc2
              have hl2 : st2.tokens.length = st1.tokens.length := by rw [ht2]
              exact ⟨ht2.trans ht1, by omega, by omega⟩
          · simp only [if_neg ht] at h
            obtain ⟨ht', hp', hb'⟩ := ihoi st1 [] v st' h
            have hl' : st'.tokens.length = st1.tokens.length := by rw [ht']
            exact ⟨ht'.trans ht1, by omega, by omega⟩
    · -- parse_object_items
      intro st acc v st' h
      simp only [parse_object_items] at h
      cases hc : consume st with
      | error e => simp only [hc] at h; exact PRes.noConfusion h
      | ok pr =>
        obtain ⟨kt, st1⟩ := pr
        simp only [hc] at h
        obtain ⟨ht1, hp1, hlt1⟩ := consume_eq_ok hc
        have hlen1 : st1.tokens.length = st.tokens.length := by rw [ht1]
        cases kt with
        | string k =>
          simp only [] at h
          cases hpk : peek st1 with
          | error e => simp only [hpk] at h; exact PRes.noConfusion h
          | ok t =>
            simp only [hpk] at h
            by_cases htc : t = Token.colon
            · simp only [if_pos htc] at h
              cases hc2 : consume st1 with
              | error e => simp only [hc2] at h; exact PRes.noConfusion h
              | ok pr2 =>
                obtain ⟨tk2, st2⟩ := pr2
                simp only [hc2] at h
                obtain ⟨ht2, hp2, hlt2⟩ := consume_eq_ok hc2
                have hlen2 : st2.tokens.length = st1.tokens.length := by rw [ht2]
                cases hv : parse_value f st2 with
                | panic => simp only [hv] at h; exact PRes.noConfusion h
                | err e => simp only [hv] at h; exact PRes.noConfusion h
                | ok pr3 =>
                  obtain ⟨v1, st3⟩ := pr3
                  simp only [hv] at h
                  obtain ⟨ht3, hp3, hb3⟩ := ihv st2 v1 st3 hv
                  have hlen3 : st3.tokens.length = st2.tokens.length := by rw [ht3]
                  cases hp4 : peek st3 with
                  | error e => simp only [hp4] at h; exact PRes.noConfusion h
                  | ok t2 =>
                    simp only [hp4] at h
                    by_cases hcm : t2 = Token.comma
                    · simp only [if_pos hcm] at h
                      cases hc3 : consume st3 with
                      | error e => simp only [hc3] at h; exact PRes.noConfusion h
                      | ok pr4 =>
                        obtain ⟨tk4, st4⟩ := pr4
                        simp only [hc3] at h
                        obtain ⟨ht4, hp4', hlt4⟩ := consume_eq_ok hc3
                        obtain ⟨ht', hp', hb'⟩ := ihoi st4 (acc ++ [(k, v1)]) v st' h
                        have hl4 : st4.tokens.length = st3.tokens.length := by rw [ht4]
                        have hl' : st'.tokens.length = st4.tokens.length := by rw [ht']
                        exact ⟨(((ht'.trans ht4).trans ht3).trans ht2).trans ht1, by omega, by omega⟩
                    · by_cases hcl : t2 = Token.curlyClose
                      · simp only [if_neg hcm, if_pos hcl] at h
                        cases hc3 : consume st3 with
                        | error e => simp only [hc3] at h; exact PRes.noConfusion h
                        | ok pr4 =>
                          obtain ⟨tk4, st4⟩ := pr4
                          simp only [hc3] at h
                          injection h with hpr
                          rw [Prod.mk.injEq] at hpr
                          obtain ⟨hveq, hsteq⟩ := hpr
                          rw [← hsteq]
                          obtain ⟨ht4, hp4', hlt4⟩ := consume_eq_ok hc3
                          have hl4 : st4.tokens.length = st3.tokens.length := by rw [ht4]
                          exact ⟨((ht4.trans ht3).trans ht2).trans ht1, by omega, by omega⟩
                      · simp only [if_neg hcm, if_neg hcl] at h
                        exact PRes.noConfusion h
            · simp only [if_neg htc] at h
              exact PRes.noConfusion h
        | _ =>
          simp only [] at h
          exact PRes.noConfusion h

/-- With enough fuel relative to the remaining tokens, no parsing routine
runs out of fuel: the source's recursion always terminates with a `Result`.
The constants follow the call chain `parse_value → parse_array/object →
item loop`, which consumes at least one token per three nested calls. -/
theorem parse_no_panic :
    ∀ f : Nat,
      (∀ st, 3 * (st.tokens.length - st.position) + 2 ≤ f →
        parse_value f st ≠ .panic) ∧
      (∀ st, 3 * (st.tokens.length - st.position) + 1 ≤ f →
        parse_array f st ≠ .panic) ∧
      (∀ st acc, 3 * (st.tokens.length - st.position) + 3 ≤ f →
        parse_array_items f st acc ≠ .panic) ∧
      (∀ st, 3 * (st.tokens.length - st.position) + 1 ≤ f →
        parse_object f st ≠ .panic) ∧
      (∀ st acc, 3 * (st.tokens.length - st.position) + 3 ≤ f →
        parse_object_items f st acc ≠ .panic) := by
  intro f
  induction f with
  | zero =>
    refine ⟨?_, ?_, ?_, ?_, ?_⟩
    · intro st hf; exact absurd hf (by omega)
    · intro st hf; exact absurd hf (by omega)
    · intro st acc hf; exact absurd hf (by omega)
    · intro st hf; exact absurd hf (by omega)
    · intro st acc hf; exact absurd hf (by omega)
  | succ f ih =>
    obtain ⟨ihv, iha, ihai, iho, ihoi⟩ := ih
    refine ⟨?_, ?_, ?_, ?_, ?_⟩
    · -- parse_value
      intro st hf
      simp only [parse_value]
      cases hp : peek st with
      | error e => intro hc; exact PRes.noConfusion hc
      | ok t =>
        simp only []
        cases t with
        | null =>
          simp only []
          cases hc : consume st with
          | error e => intro hcc; exact PRes.noConfusion hcc
          | ok pr =>
            obtain ⟨tk, st1⟩ := pr
            intro hcc; exact PRes.noConfusion hcc
        | boolean b =>
          simp only []
          cases hc : consume st with
          | error e => intro hcc; exact PRes.noConfusion hcc
          | ok pr =>
            obtain ⟨tk, st1⟩ := pr
            intro hcc; exact PRes.noConfusion hcc
        | number n =>
          simp only []
          cases hc : consume st with
          | error e => intro hcc; exact PRes.noConfusion hcc
          | ok pr =>
            obtain ⟨tk, st1⟩ := pr
            intro hcc; exact PRes.noConfusion hcc
        | string s =>
          simp only []
          cases hc : consume st with
          | error e => intro hcc; exact PRes.noConfusion hcc
          | ok pr =>
            obtain ⟨tk, st1⟩ := pr
            intro hcc; exact PRes.noConfusion hcc
        | bracketOpen => exact iha st (by omega)
        | curlyOpen => exact iho st (by omega)
        | curlyClose => intro hc; exact PRes.noConfusion hc
        | bracketClose => intro hc; exact PRes.noConfusion hc
        | colon => intro hc; exact PRes.noConfusion hc
        | comma => intro hc; exact PRes.noConfusion hc
    · -- parse_array
      intro st hf
      simp only [parse_array]
      cases hc : consume st with
      | error e => intro hcc; exact PRes.noConfusion hcc
      | ok pr =>
        obtain ⟨tk, st1⟩ := pr
        simp only []
        obtain ⟨ht1, hp1, hlt1⟩ := consume_eq_ok hc
        have hlen1 : st1.tokens.length = st.tokens.length := by rw [ht1]
        cases hp : peek st1 with
        | error e => intro hcc; exact PRes.noConfusion hcc
        | ok t =>
          simp only []
          by_cases ht : t = Token.bracketClose
          · rw [if_pos ht]
            cases hc2 : consume st1 with
            | error e => intro hcc; exact PRes.noConfusion hcc
            | ok pr2 =>
              obtain ⟨tk2, st2⟩ := pr2
              intro hcc; exact PRes.noConfusion hcc
          · rw [if_neg ht]
            exact ihai st1 [] (by omega)
    · -- parse_array_items
      intro st acc hf
      simp only [parse_array_items]
      cases hv : parse_value f st with
      | panic => exact absurd hv (ihv st (by omega))
      | err e => intro hcc; exact PRes.noConfusion hcc
      | ok pr =>
        obtain ⟨v1, st1⟩ := pr
        simp only []
        obtain ⟨ht1, hp1, hb1⟩ := (parse_mono f).1 st v1 st1 hv
        have hlen1 : st1.tokens.length = st.tokens.length := by rw [ht1]
        cases hp : peek st1 with
        | error e => intro hcc; exact PRes.noConfusion hcc
        | ok t =>
          simp only []
          by_cases hcm : t = Token.comma
          · rw [if_pos hcm]
            cases hc : consume st1 with
            | error e => intro hcc; exact PRes.noConfusion hcc
            | ok pr2 =>
              obtain ⟨tk2, st2⟩ := pr2
              simp only []
              obtain ⟨ht2, hp2, hlt2⟩ := consume_eq_ok hc
              have hlen2 : st2.tokens.length = st1.tokens.length := by rw [ht2]
              exact ihai st2 (acc ++ [v1]) (by omega)
          · rw [if_neg hcm]
            by_cases hcl : t = Token.bracketClose
            · rw [if_pos hcl]
              cases hc : consume st1 with
              | error e => intro hcc; exact PRes.noConfusion hcc
              | ok pr2 =>
                obtain ⟨tk2, st2⟩ := pr2
                intro hcc; exact PRes.noConfusion hcc
            · rw [if_neg hcl]
              intro hcc; exact PRes.noConfusion hcc
    · -- parse_object
      intro st hf
      simp only [parse_object]
      cases hc : consume st with
      | error e => intro hcc; exact PRes.noConfusion hcc
      | ok pr =>
        obtain ⟨tk, st1⟩ := pr
        simp only []
        obtain ⟨ht1, hp1, hlt1⟩ := consume_eq_ok hc
        have hlen1 : st1.tokens.length = st.tokens.length := by rw [ht1]
        cases hp : peek st1 with
        | error e => intro hcc; exact PRes.noConfusion hcc
        | ok t =>
          simp only []
          by_cases ht : t = Token.curlyClose
          · rw [if_pos ht]
            cases hc2 : consume st1 with
            | error e => intro hcc; exact PRes.noConfusion hcc
            | ok pr2 =>
              obtain ⟨tk2, st2⟩ := pr2
              intro hcc; exact PRes.noConfusion hcc
          · rw [if_neg ht]
            exact ihoi st1 [] (by omega)
    · -- parse_object_items
      intro st acc hf
      simp only [parse_object_items]
      cases hc : consume st with
      | error e => intro hcc; exact PRes.noConfusion hcc
      | ok pr =>
        obtain ⟨kt, st1⟩ := pr
        simp only []
        obtain ⟨ht1, hp1, hlt1⟩ := consume_eq_ok hc
        have hlen1 : st1.tokens.length = st.tokens.length := by rw [ht1]
        cases kt with
        | string k =>
          simp only []
          cases hpk : peek st1 with
          | error e => intro hcc; exact PRes.noConfusion hcc
          | ok t =>
            simp only []
            by_cases htc : t = Token.colon
            · rw [if_pos htc]
              cases hc2 : consume st1 with
              | error e => intro hcc; exact PRes.noConfusion hcc
              | ok pr2 =>
                obtain ⟨tk2, st2⟩ := pr2
                simp only []
                obtain ⟨ht2, hp2, hlt2⟩ := consume_eq_ok hc2
                have hlen2 : st2.tokens.length = st1.tokens.length := by rw [ht2]
                cases hv : parse_value f st2 with
                | panic => exact absurd hv (ihv st2 (by omega))
                | err e => intro hcc; exact PRes.noConfusion hcc
                | ok pr3 =>
                  obtain ⟨v1, st3⟩ := pr3
                  simp only []
                  obtain ⟨ht3, hp3, hb3⟩ := (parse_mono f).1 st2 v1 st3 hv
                  have hlen3 : st3.tokens.length = st2.tokens.length := by rw [ht3]
                  cases hp4 : peek st3 with
                  | error e => intro hcc; exact PRes.noConfusion hcc
                  | ok t2 =>
                    simp only []
                    by_cases hcm : t2 = Token.comma
                    · rw [if_pos hcm]
                      cases hc3 : consume st3 with
                      | error e => intro hcc; exact PRes.noConfusion hcc
                      | ok pr4 =>
                        obtain ⟨tk4, st4⟩ := pr4
                        simp only []
                        obtain ⟨ht4, hp4', hlt4⟩ := consume_eq_ok hc3
                        have hlen4 : st4.tokens.length = st3.tokens.length := by rw [ht4]
                        exact ihoi st4 (acc ++ [(k, v1)]) (by omega)
                    · rw [if_neg hcm]
                      by_cases hcl : t2 = Token.curlyClose
                      · rw [if_pos hcl]
                        cases hc3 : consume st3 with
                        | error e => intro hcc; exact PRes.noConfusion hcc
                        | ok pr4 =>
                          obtain ⟨tk4, st4⟩ := pr4
                          intro hcc; exact PRes.noConfusion hcc
                      · rw [if_neg hcl]
                        intro hcc; exact PRes.noConfusion hcc
            · rw [if_neg htc]
              intro hcc; exact PRes.noConfusion hcc
        | _ =>
          simp only []
          intro hcc; exact PRes.noConfusion hcc

/-- Claim C3 (status: confirmed).  On every input string, the whole pipeline
(tokenize, then parse) returns a `Result` — a value or an error — and never
reaches the embedded non-`Result` outcome: the lexer's loop and the parser's
recursion always terminate with `ok` or `err`, malformed input included. -/
theorem c3_total_result :
    ∀ input : String,
      (∃ v, parse_json input = .ok v) ∨ (∃ e, parse_json input = .err e) := by
  intro input
  unfold parse_json
  cases htok : tokenize input.data with
  | panic => exact absurd htok (tokenize_ne_panic input.data)
  | err e => exact Or.inr ⟨e, rfl⟩
  | ok tokens =>
    simp only []
    by_cases hemp : tokens.isEmpty = true
    · rw [if_pos hemp]
      exact Or.inr ⟨.emptyInput, rfl⟩
    · rw [if_neg hemp]
      cases hval : parse_value (3 * tokens.length + 3) ⟨tokens, 0⟩ with
      | panic =>
        refine absurd hval ((parse_no_panic _).1 ⟨tokens, 0⟩ ?_)
        show 3 * (tokens.length - 0) + 2 ≤ 3 * tokens.length + 3
        omega
      | err e => exact Or.inr ⟨e, rfl⟩
      | ok pr =>
        obtain ⟨v, st⟩ := pr
        simp only []
        by_cases hlt : st.position < st.tokens.length
        · rw [if_pos hlt]
          exact Or.inr ⟨.trailingTokens (st.tokens.drop st.position), rfl⟩
        · rw [if_neg hlt]
          exact Or.inl ⟨v, rfl⟩

/-- Claim C4 (status: confirmed).  The read cursor never decreases and never
exceeds the token count: `consume` advances it by exactly one and only when a
token is available (failing with `UnexpectedEndOfInput` otherwise), and every
successful `parse_value` / `parse_array` / `parse_object` leaves the token
list unchanged with a cursor that has not decreased and is within the token
count (`peek` takes the state read-only and cannot move the cursor). -/
theorem c4_cursor_invariants :
    (∀ (st : PState) (t : Token) (st' : PState), consume st = .ok (t, st') →
      st'.tokens = st.tokens ∧ st'.position = st.position + 1 ∧
        st.position < st.tokens.length) ∧
    (∀ st : PState, st.tokens.length ≤ st.position →
      consume st = .error .unexpectedEndOfInput) ∧
    (∀ (f : Nat) (st : PState) (v : JsonValue) (st' : PState),
      parse_value f st = .ok (v, st') →
      st'.tokens = st.tokens ∧ st.position ≤ st'.position ∧
        st'.position ≤ st.tokens.length) ∧
    (∀ (f : Nat) (st : PState) (v : JsonValue) (st' : PState),
      parse_array f st = .ok (v, st') →
      st'.tokens = st.tokens ∧ st.position ≤ st'.position ∧
        st'.position ≤ st.tokens.length) ∧
    (∀ (f : Nat) (st : PState) (v : JsonValue) (st' : PState),
      parse_object f st = .ok (v, st') →
      st'.tokens = st.tokens ∧ st.position ≤ st'.position ∧
        st'.position ≤ st.tokens.length) := by
  refine ⟨fun st t st' h => consume_eq_ok h, fun st h => consume_eq_err h,
    ?_, ?_, ?_⟩
  · intro f st v st' h
    obtain ⟨h1, h2, h3⟩ := (parse_mono f).1 st v st' h
    exact ⟨h1, Nat.le_of_lt h2, h3⟩
  · intro f st v st' h
    obtain ⟨h1, h2, h3⟩ := (parse_mono f).2.1 st v st' h
    exact ⟨h1, Nat.le_of_lt h2, h3⟩
  · intro f st v st' h
    obtain ⟨h1, h2, h3⟩ := (parse_mono f).2.2.2.1 st v st' h
    exact ⟨h1, Nat.le_of_lt h2, h3⟩

/-- Witness for C4: consuming the only token of `[Null]` moves the cursor
from 0 to 1 and preserves the token list. -/
theorem c4_witness :
    (⟨[Token.null], 1⟩ : PState).tokens = (⟨[Token.null], 0⟩ : PState).tokens ∧
    (⟨[Token.null], 1⟩ : PState).position = (⟨[Token.null], 0⟩ : PState).position + 1 ∧
    (⟨[Token.null], 0⟩ : PState).position < (⟨[Token.null], 0⟩ : PState).tokens.length :=
  c4_cursor_invariants.1 ⟨[Token.null], 0⟩ Token.null ⟨[Token.null], 1⟩ rfl

end MHttp
